import Mathlib

/-!
Verification development for the declarative-dataflow engine.

The Rust sources are embedded shallowly: logical times are `Nat`, machine
integers carrying multiplicities (`isize`) are `Int`, hash maps are
association lists processed in insertion order, and the stateful dataflow
operators become explicit state-passing step functions.  Fallible code
returns `Option`, with `none` standing for a Rust panic.
-/

set_option autoImplicit false

namespace DDF

/-- Entity identifier, `pub type Eid = u64` in lib.rs. -/
abbrev Eid := Nat

/-- Attribute identifier, `pub type Aid = String` in lib.rs. -/
abbrev Aid := String

/-- Modelled from the spec: the logical timestamp type of the domain
(`pub mod timestamp` is not among the sources).  The spec requires a
totally ordered logical time; the server instantiates domains at `u64`,
so we use `Nat`. -/
abbrev T := Nat

/-- The tagged-sum value type `Value` from lib.rs. -/
inductive Value where
  /-- An attribute identifier. -/
  | aid (a : Aid)
  /-- A string. -/
  | string (s : String)
  /-- A boolean. -/
  | bool (b : Bool)
  /-- A 64 bit signed integer. -/
  | number (n : Int)
  /-- A 32 bit rational, numerator and denominator. -/
  | rational32 (numer denom : Int)
  /-- An entity identifier. -/
  | eid (e : Eid)
  /-- Milliseconds since midnight, January 1, 1970 UTC. -/
  | instant (i : Nat)
  /-- A 16 byte unique identifier. -/
  | uuid (bytes : List Nat)
  /-- A Timely operator address. -/
  | address (addr : List Nat)
deriving DecidableEq, Repr

/-- A client-facing, non-exceptional error (`pub struct Error` in lib.rs). -/
structure Error where
  category : String
  message : String
deriving DecidableEq, Repr

/-- Transaction data `TxData(op, e, a, v)` from lib.rs: a flat
`(diff, Eid, Aid, Value)` change record. -/
structure TxData where
  op : Int
  e : Eid
  a : Aid
  v : Value
deriving DecidableEq, Repr

/-- A single update of a differential collection of `(e, v)` pairs:
`((Value, Value), T, isize)` in the sources. -/
abbrev Update := (Value × Value) × T × Int

section AssocList

variable {α β : Type} [DecidableEq α]

/-- Lookup in an association list, the embedding of `HashMap::get`. -/
def alookup (k : α) : List (α × β) → Option β
  | [] => none
  | (k₁, v) :: rest => if k₁ = k then some v else alookup k rest

/-- Insert-or-replace in an association list, the embedding of
`HashMap::insert`. -/
def ainsert (k : α) (v : β) : List (α × β) → List (α × β)
  | [] => [(k, v)]
  | (k₁, v₁) :: rest => if k₁ = k then (k, v) :: rest else (k₁, v₁) :: ainsert k v rest

/-- Remove a key from an association list, the embedding of
`HashMap::remove`. -/
def aerase (k : α) : List (α × β) → List (α × β)
  | [] => []
  | (k₁, v₁) :: rest => if k₁ = k then rest else (k₁, v₁) :: aerase k rest

/-- Update the value stored at a key, if present (the embedding of
`HashMap::get_mut` followed by a mutation). -/
def aupdate (k : α) (f : β → β) : List (α × β) → List (α × β)
  | [] => []
  | (k₁, v₁) :: rest => if k₁ = k then (k₁, f v₁) :: rest else (k₁, v₁) :: aupdate k f rest

@[simp] theorem alookup_nil (k : α) : alookup (β := β) k [] = none := rfl

theorem alookup_ainsert (k k₁ : α) (v : β) (l : List (α × β)) :
    alookup k (ainsert k₁ v l) = if k₁ = k then some v else alookup k l := by
  induction l with
  | nil => simp only [ainsert, alookup]
  | cons hd tl ih =>
    obtain ⟨k₂, v₂⟩ := hd
    by_cases h₂ : k₂ = k₁
    · subst h₂
      by_cases h : k₂ = k <;> simp [ainsert, alookup, h]
    · by_cases h : k₂ = k
      · subst h
        have he : ainsert k₁ v ((k₂, v₂) :: tl) = (k₂, v₂) :: ainsert k₁ v tl := by
          simp [ainsert, h₂]
        have hne : k₁ ≠ k₂ := fun hk => h₂ hk.symm
        rw [he]
        simp [alookup, hne]
      · simp [ainsert, alookup, h₂, h, ih]

@[simp] theorem alookup_ainsert_self (k : α) (v : β) (l : List (α × β)) :
    alookup k (ainsert k v l) = some v := by
  simp [alookup_ainsert]

theorem alookup_ainsert_ne (k k₁ : α) (v : β) (l : List (α × β)) (h : k₁ ≠ k) :
    alookup k (ainsert k₁ v l) = alookup k l := by
  simp [alookup_ainsert, h]

theorem alookup_aerase_ne (k k₁ : α) (l : List (α × β)) (h : k₁ ≠ k) :
    alookup k (aerase k₁ l) = alookup k l := by
  induction l with
  | nil => rfl
  | cons hd tl ih =>
    obtain ⟨k₂, v₂⟩ := hd
    by_cases h₂ : k₂ = k₁
    · subst h₂
      have hk : k₂ ≠ k := fun hk => h (hk ▸ rfl)
      simp [aerase, alookup, hk]
    · by_cases hk : k₂ = k
      · subst hk
        have he : aerase k₁ ((k₂, v₂) :: tl) = (k₂, v₂) :: aerase k₁ tl := by
          simp [aerase, h₂]
        rw [he]
        simp [alookup]
      · simp [aerase, alookup, h₂, hk, ih]

/-- Keys of an association list. -/
def akeys (l : List (α × β)) : List α := l.map Prod.fst

theorem akeys_ainsert_subset (k : α) (v : β) (l : List (α × β)) :
    akeys (ainsert k v l) ⊆ k :: akeys l := by
  induction l with
  | nil => simp [ainsert, akeys]
  | cons hd tl ih =>
    obtain ⟨k₂, v₂⟩ := hd
    by_cases h₂ : k₂ = k
    · subst h₂
      have he : ainsert k₂ v ((k₂, v₂) :: tl) = (k₂, v) :: tl := by
        simp [ainsert]
      rw [he]
      intro a ha
      simp only [akeys, List.map_cons, List.mem_cons] at ha ⊢
      tauto
    · simp only [ainsert, if_neg h₂]
      intro a ha
      simp only [akeys, List.map_cons, List.mem_cons] at ha ⊢
      rcases ha with rfl | hmem
      · tauto
      · have := ih hmem
        simp only [akeys, List.mem_cons] at this
        tauto

theorem akeys_aerase_subset (k : α) (l : List (α × β)) :
    akeys (aerase k l) ⊆ akeys l := by
  induction l with
  | nil => simp [aerase]
  | cons hd tl ih =>
    obtain ⟨k₂, v₂⟩ := hd
    by_cases h₂ : k₂ = k
    · simp only [aerase, if_pos h₂, akeys, List.map_cons]
      exact fun a ha => List.mem_cons_of_mem _ ha
    · simp only [aerase, if_neg h₂]
      intro a ha
      simp only [akeys, List.map_cons, List.mem_cons] at ha ⊢
      rcases ha with rfl | hmem
      · tauto
      · exact Or.inr (ih hmem)

theorem nodup_akeys_ainsert (k : α) (v : β) (l : List (α × β))
    (h : (akeys l).Nodup) : (akeys (ainsert k v l)).Nodup := by
  induction l with
  | nil => simp [ainsert, akeys]
  | cons hd tl ih =>
    obtain ⟨k₂, v₂⟩ := hd
    simp only [akeys, List.map_cons, List.nodup_cons] at h
    by_cases h₂ : k₂ = k
    · subst h₂
      have he : ainsert k₂ v ((k₂, v₂) :: tl) = (k₂, v) :: tl := by
        simp [ainsert]
      rw [he]
      simp only [akeys, List.map_cons, List.nodup_cons]
      exact h
    · simp only [ainsert, if_neg h₂]
      simp only [akeys, List.map_cons, List.nodup_cons]
      refine ⟨fun hmem => ?_, ih h.2⟩
      have := akeys_ainsert_subset k v tl hmem
      simp only [List.mem_cons] at this
      rcases this with h₃ | h₃
      · exact h₂ h₃
      · exact h.1 h₃

theorem nodup_akeys_aerase (k : α) (l : List (α × β))
    (h : (akeys l).Nodup) : (akeys (aerase k l)).Nodup := by
  induction l with
  | nil => simp [aerase, akeys]
  | cons hd tl ih =>
    obtain ⟨k₂, v₂⟩ := hd
    simp only [akeys, List.map_cons, List.nodup_cons] at h
    by_cases h₂ : k₂ = k
    · simp only [aerase, if_pos h₂]
      exact h.2
    · simp only [aerase, if_neg h₂]
      simp only [akeys, List.map_cons, List.nodup_cons]
      exact ⟨fun hmem => h.1 (akeys_aerase_subset k tl hmem), ih h.2⟩

theorem alookup_eq_none_of_not_mem (k : α) (l : List (α × β))
    (h : k ∉ akeys l) : alookup k l = none := by
  induction l with
  | nil => rfl
  | cons hd tl ih =>
    obtain ⟨k₂, v₂⟩ := hd
    simp only [akeys, List.map_cons, List.mem_cons] at h
    push_neg at h
    simp only [alookup, if_neg (fun hk : k₂ = k => h.1 hk.symm)]
    exact ih h.2

theorem alookup_aerase_self (k : α) (l : List (α × β))
    (h : (akeys l).Nodup) : alookup k (aerase k l) = none := by
  induction l with
  | nil => rfl
  | cons hd tl ih =>
    obtain ⟨k₂, v₂⟩ := hd
    simp only [akeys, List.map_cons, List.nodup_cons] at h
    by_cases h₂ : k₂ = k
    · subst h₂
      simp only [aerase, if_pos rfl]
      exact alookup_eq_none_of_not_mem k₂ tl h.1
    · simp only [aerase, if_neg h₂, alookup, if_neg h₂]
      exact ih h.2

end AssocList

/-!
The `CardinalityOne` operator from `Domain::create_attribute`
(src/domain/mod.rs).  The Rust code is a `unary_frontier` operator with a
`FrontierNotificator`; we embed it as a step function over an explicit
event trace.  A `batch` event is one invocation of the input handler with
a capability time and a data buffer; a `notify` event is the notificator
delivering a retained capability once the input frontier has passed its
time.  The input diff is ignored by the operator (the Rust closure binds
it to `_`), which the embedding preserves.
-/

/-- One scheduling event of the CardinalityOne operator. -/
inductive C1Event where
  /-- A batch of updates arriving with a capability time. -/
  | batch (cap : T) (data : List Update)
  /-- A frontier notification for a retained capability time. -/
  | notify (t : T)
deriving DecidableEq, Repr

/-- Operator state: `eids` maps a pending time to the set of entities
affected at that time, `current` maps an entity to its currently asserted
value, `next` maps an entity to its latest proposed `(time, value)`.  The
emitted output updates are accumulated in order in `outputs`. -/
structure C1State where
  eids : List (T × List Value)
  current : List (Value × Value)
  next : List (Value × (T × Value))
  outputs : List Update
deriving DecidableEq, Repr

/-- The empty initial state of the operator. -/
def c1Init : C1State := ⟨[], [], [], []⟩

/-- Record an affected entity for a time:
`eids.entry(t).or_insert_with(HashSet::new).insert(eid)`. -/
def eidsInsert (t : T) (e : Value) (m : List (T × List Value)) : List (T × List Value) :=
  match alookup t m with
  | none => ainsert t [e] m
  | some l => ainsert t (if e ∈ l then l else l ++ [e]) m

/-- Process one incoming update inside a batch with capability `cap`:
the body of the `for ((eid, v), t, _) in tuples.drain(..)` loop. -/
def c1Ingest (cap : T) (s : C1State) (u : Update) : C1State :=
  let e := u.1.1
  let v := u.1.2
  let t := u.2.1
  -- next.entry(eid).or_insert((cap.time().clone(), v.clone()))
  let next₀ := match alookup e s.next with
    | some _ => s.next
    | none => ainsert e (cap, v) s.next
  let last_t := ((alookup e next₀).getD (cap, v)).1
  if last_t ≤ t then
    { s with next := ainsert e (t, v) next₀, eids := eidsInsert t e s.eids }
  else
    { s with next := next₀ }

/-- Process one affected entity during a notification at time `t`: emit a
retraction of the previously current value (if any), then an assertion of
the next value (if any), promoting it to current. -/
def c1NotifyEid (t : T) (s : C1State) (e : Value) : C1State :=
  let s₁ := match alookup e s.current with
    | some current_v =>
      { s with current := aerase e s.current,
               outputs := s.outputs ++ [((e, current_v), t, -1)] }
    | none => s
  match alookup e s₁.next with
  | some tv =>
    { s₁ with next := aerase e s₁.next,
              outputs := s₁.outputs ++ [((e, tv.2), t, 1)],
              current := ainsert e tv.2 s₁.current }
  | none => s₁

/-- One step of the operator: either ingest a batch or fire a
notification, draining the entity set recorded for that time. -/
def c1Step (s : C1State) : C1Event → C1State
  | .batch cap data => data.foldl (c1Ingest cap) s
  | .notify t =>
    match alookup t s.eids with
    | none => s
    | some l => l.foldl (c1NotifyEid t) { s with eids := aerase t s.eids }

/-- Run the operator over an event trace from the empty state. -/
def c1Run (events : List C1Event) : C1State :=
  events.foldl c1Step c1Init

/-- The diff contributed by one output update to the tuple `x`. -/
def diffIf (x : Value × Value) (u : Update) : Int :=
  if u.1 = x then u.2.2 else 0

/-- Net multiplicity of a tuple over a whole update list. -/
def netAll (outs : List Update) (x : Value × Value) : Int :=
  (outs.map (diffIf x)).sum

/-- Net multiplicity of a tuple accumulated over all updates with time at
most `t`: the contents of the collection at `t`. -/
def netLE (t : T) (outs : List Update) (x : Value × Value) : Int :=
  (outs.map (fun u => if u.2.1 ≤ t then diffIf x u else 0)).sum

/-- Times of the notify events of a trace, in trace order. -/
def notifyTimes : List C1Event → List T
  | [] => []
  | .batch _ _ :: rest => notifyTimes rest
  | .notify t :: rest => t :: notifyTimes rest

theorem netAll_append (l₁ l₂ : List Update) (x : Value × Value) :
    netAll (l₁ ++ l₂) x = netAll l₁ x + netAll l₂ x := by
  simp [netAll]

@[simp] theorem netAll_nil (x : Value × Value) : netAll [] x = 0 := rfl

@[simp] theorem netAll_singleton (u : Update) (x : Value × Value) :
    netAll [u] x = diffIf x u := by
  simp [netAll]

theorem netLE_append (t : T) (l₁ l₂ : List Update) (x : Value × Value) :
    netLE t (l₁ ++ l₂) x = netLE t l₁ x + netLE t l₂ x := by
  simp [netLE]

theorem netLE_eq_left (t : T) (l₁ l₂ : List Update) (x : Value × Value)
    (h : ∀ u ∈ l₂, ¬u.2.1 ≤ t) : netLE t (l₁ ++ l₂) x = netLE t l₁ x := by
  rw [netLE_append]
  have : netLE t l₂ x = 0 := by
    simp only [netLE]
    rw [List.sum_eq_zero]
    intro y hy
    obtain ⟨u, hu, rfl⟩ := List.mem_map.mp hy
    simp [h u hu]
  omega

theorem netLE_eq_netAll (t : T) (l : List Update) (x : Value × Value)
    (h : ∀ u ∈ l, u.2.1 ≤ t) : netLE t l x = netAll l x := by
  simp only [netLE, netAll]
  congr 1
  exact List.map_congr_left fun u hu => by simp [h u hu]

/-- Correctness invariant of the CardinalityOne operator state: the net
multiplicity of `(e, v)` over the emitted outputs is `1` exactly when `v`
is the current value of `e`, and the `current` map has no duplicate
keys. -/
def C1Inv (s : C1State) : Prop :=
  (∀ x : Value × Value,
    netAll s.outputs x = if alookup x.1 s.current = some x.2 then 1 else 0) ∧
  (akeys s.current).Nodup

theorem c1Ingest_outputs (cap : T) (s : C1State) (u : Update) :
    (c1Ingest cap s u).outputs = s.outputs := by
  unfold c1Ingest
  dsimp only
  split <;> rfl

theorem c1Ingest_current (cap : T) (s : C1State) (u : Update) :
    (c1Ingest cap s u).current = s.current := by
  unfold c1Ingest
  dsimp only
  split <;> rfl

theorem c1IngestFold_outputs (cap : T) (data : List Update) (s : C1State) :
    (data.foldl (c1Ingest cap) s).outputs = s.outputs := by
  induction data generalizing s with
  | nil => rfl
  | cons u rest ih => rw [List.foldl_cons, ih, c1Ingest_outputs]

theorem c1IngestFold_current (cap : T) (data : List Update) (s : C1State) :
    (data.foldl (c1Ingest cap) s).current = s.current := by
  induction data generalizing s with
  | nil => rfl
  | cons u rest ih => rw [List.foldl_cons, ih, c1Ingest_current]

theorem diffIf_eval (e v : Value) (tt : T) (d : Int) (x : Value × Value) :
    diffIf x ((e, v), tt, d) = if x.1 = e ∧ x.2 = v then d else 0 := by
  simp only [diffIf]
  by_cases h : (e, v) = x
  · obtain ⟨h₁, h₂⟩ := Prod.ext_iff.mp h
    rw [if_pos h, if_pos ⟨h₁.symm, h₂.symm⟩]
  · rw [if_neg h, if_neg]
    rintro ⟨h₁, h₂⟩
    exact h (Prod.ext h₁.symm h₂.symm)

theorem c1NotifyEid_inv (t : T) (s : C1State) (e : Value) (h : C1Inv s) :
    C1Inv (c1NotifyEid t s e) := by
  obtain ⟨hnet, hnodup⟩ := h
  unfold c1NotifyEid
  dsimp only
  cases hcur : alookup e s.current with
  | none =>
    cases hnext : alookup e s.next with
    | none =>
      simp only [hcur, hnext]
      exact ⟨hnet, hnodup⟩
    | some tv =>
      simp only [hcur, hnext]
      refine ⟨fun x => ?_, nodup_akeys_ainsert _ _ _ hnodup⟩
      obtain ⟨x₁, x₂⟩ := x
      rw [netAll_append, netAll_singleton, diffIf_eval, hnet ⟨x₁, x₂⟩]
      dsimp only
      by_cases hx : x₁ = e
      · subst hx
        rw [alookup_ainsert_self, hcur]
        by_cases hv : x₂ = tv.2
        · subst hv
          simp
        · simp [hv, Ne.symm hv]
      · rw [alookup_ainsert_ne _ _ _ _ (fun hh => hx hh.symm)]
        simp [hx]
  | some current_v =>
    cases hnext : alookup e s.next with
    | none =>
      simp only [hcur, hnext]
      refine ⟨fun x => ?_, nodup_akeys_aerase _ _ hnodup⟩
      obtain ⟨x₁, x₂⟩ := x
      rw [netAll_append, netAll_singleton, diffIf_eval, hnet ⟨x₁, x₂⟩]
      dsimp only
      by_cases hx : x₁ = e
      · subst hx
        rw [alookup_aerase_self _ _ hnodup, hcur]
        by_cases hv : x₂ = current_v
        · subst hv
          simp
        · simp [hv, Ne.symm hv]
      · rw [alookup_aerase_ne _ _ _ (fun hh => hx hh.symm)]
        simp [hx]
    | some tv =>
      simp only [hcur, hnext]
      refine ⟨fun x => ?_,
        nodup_akeys_ainsert _ _ _ (nodup_akeys_aerase _ _ hnodup)⟩
      obtain ⟨x₁, x₂⟩ := x
      rw [List.append_assoc, netAll_append, netAll_append, netAll_singleton,
        netAll_singleton, diffIf_eval, diffIf_eval, hnet ⟨x₁, x₂⟩]
      dsimp only
      by_cases hx : x₁ = e
      · subst hx
        rw [alookup_ainsert_self, hcur]
        by_cases hv : x₂ = tv.2
        · subst hv
          by_cases hcv : tv.2 = current_v
          · simp [hcv]
          · simp [hcv, Ne.symm hcv]
        · by_cases hcv : x₂ = current_v
          · subst hcv
            simp [hv, Ne.symm hv]
          · simp [hv, Ne.symm hv, hcv, Ne.symm hcv]
      · rw [alookup_ainsert_ne _ _ _ _ (fun hh => hx hh.symm),
          alookup_aerase_ne _ _ _ (fun hh => hx hh.symm)]
        simp [hx]

theorem c1NotifyFold_inv (t : T) (l : List Value) (s : C1State) (h : C1Inv s) :
    C1Inv (l.foldl (c1NotifyEid t) s) := by
  induction l generalizing s with
  | nil => exact h
  | cons e rest ih => exact ih _ (c1NotifyEid_inv t s e h)

theorem c1Step_inv (s : C1State) (ev : C1Event) (h : C1Inv s) :
    C1Inv (c1Step s ev) := by
  cases ev with
  | batch cap data =>
    obtain ⟨hnet, hnodup⟩ := h
    constructor
    · intro x
      simp only [c1Step]
      simp only [c1IngestFold_outputs, c1IngestFold_current]
      exact hnet x
    · simp only [c1Step]
      rw [c1IngestFold_current]
      exact hnodup
  | notify t =>
    simp only [c1Step]
    cases halo : alookup t s.eids with
    | none => exact h
    | some l => exact c1NotifyFold_inv t l _ h

theorem c1Run_inv (events : List C1Event) : C1Inv (c1Run events) := by
  have hinit : C1Inv c1Init := by
    constructor
    · intro x
      simp [c1Init, netAll, alookup]
    · simp [c1Init, akeys]
  rw [c1Run]
  induction events using List.reverseRecOn with
  | nil => exact hinit
  | append_singleton es ev ih =>
    rw [List.foldl_append, List.foldl_cons, List.foldl_nil]
    exact c1Step_inv _ ev ih

theorem c1Run_append (es : List C1Event) (ev : C1Event) :
    c1Run (es ++ [ev]) = c1Step (c1Run es) ev := by
  simp [c1Run, List.foldl_append]

theorem notifyTimes_append (l₁ l₂ : List C1Event) :
    notifyTimes (l₁ ++ l₂) = notifyTimes l₁ ++ notifyTimes l₂ := by
  induction l₁ with
  | nil => rfl
  | cons ev rest ih => cases ev <;> simp [notifyTimes, ih]

theorem c1NotifyEid_outputs (t : T) (s : C1State) (e : Value) :
    ∃ added, (c1NotifyEid t s e).outputs = s.outputs ++ added ∧
      ∀ u ∈ added, u.2.1 = t := by
  unfold c1NotifyEid
  dsimp only
  cases hcur : alookup e s.current with
  | none =>
    cases hnext : alookup e s.next with
    | none => exact ⟨[], by simp⟩
    | some tv => exact ⟨[((e, tv.2), t, 1)], by simp⟩
  | some cv =>
    cases hnext : alookup e s.next with
    | none => exact ⟨[((e, cv), t, -1)], by simp⟩
    | some tv =>
      refine ⟨[((e, cv), t, -1), ((e, tv.2), t, 1)], ?_, by simp⟩
      simp

theorem c1NotifyFold_outputs (t : T) (l : List Value) (s : C1State) :
    ∃ added, (l.foldl (c1NotifyEid t) s).outputs = s.outputs ++ added ∧
      ∀ u ∈ added, u.2.1 = t := by
  induction l generalizing s with
  | nil => exact ⟨[], by simp⟩
  | cons e rest ih =>
    obtain ⟨a₁, h₁, ht₁⟩ := c1NotifyEid_outputs t s e
    obtain ⟨a₂, h₂, ht₂⟩ := ih (c1NotifyEid t s e)
    refine ⟨a₁ ++ a₂, ?_, ?_⟩
    · rw [List.foldl_cons, h₂, h₁, List.append_assoc]
    · intro u hu
      rcases List.mem_append.mp hu with h | h
      · exact ht₁ u h
      · exact ht₂ u h

theorem c1Step_notify_outputs (s : C1State) (t : T) :
    ∃ added, (c1Step s (.notify t)).outputs = s.outputs ++ added ∧
      ∀ u ∈ added, u.2.1 = t := by
  simp only [c1Step]
  cases halo : alookup t s.eids with
  | none => exact ⟨[], by simp⟩
  | some l => exact c1NotifyFold_outputs t l _

theorem c1Run_output_times (events : List C1Event) :
    ∀ u ∈ (c1Run events).outputs, u.2.1 ∈ notifyTimes events := by
  induction events using List.reverseRecOn with
  | nil => intro u hu; simp [c1Run, c1Init] at hu
  | append_singleton es ev ih =>
    intro u hu
    rw [c1Run_append] at hu
    rw [notifyTimes_append]
    cases ev with
    | batch cap data =>
      simp only [c1Step, c1IngestFold_outputs] at hu
      simp [notifyTimes]
      exact ih u hu
    | notify t =>
      obtain ⟨added, heq, htimes⟩ := c1Step_notify_outputs (c1Run es) t
      rw [heq] at hu
      rcases List.mem_append.mp hu with h | h
      · exact List.mem_append.mpr (Or.inl (ih u h))
      · exact List.mem_append.mpr (Or.inr (by simp [notifyTimes, htimes u h]))

theorem c1AtMostOne (events : List C1Event) :
    (notifyTimes events).Pairwise (· < ·) →
    ∀ (t : T) (e v₁ v₂ : Value),
      0 < netLE t (c1Run events).outputs (e, v₁) →
      0 < netLE t (c1Run events).outputs (e, v₂) → v₁ = v₂ := by
  induction events using List.reverseRecOn with
  | nil =>
    intro _ t e v₁ v₂ h₁ _
    simp [c1Run, c1Init, netLE] at h₁
  | append_singleton es ev ih =>
    intro hmono t e v₁ v₂ h₁ h₂
    rw [c1Run_append] at h₁ h₂
    cases ev with
    | batch cap data =>
      rw [notifyTimes_append] at hmono
      simp only [notifyTimes, List.append_nil] at hmono
      simp only [c1Step, c1IngestFold_outputs] at h₁ h₂
      exact ih hmono t e v₁ v₂ h₁ h₂
    | notify tn =>
      rw [notifyTimes_append] at hmono
      simp only [notifyTimes] at hmono
      obtain ⟨hp₁, _, hcross⟩ := List.pairwise_append.mp hmono
      obtain ⟨added, heq, htimes⟩ := c1Step_notify_outputs (c1Run es) tn
      by_cases ht : tn ≤ t
      · have hall : ∀ u ∈ (c1Step (c1Run es) (.notify tn)).outputs, u.2.1 ≤ t := by
          rw [heq]
          intro u hu
          rcases List.mem_append.mp hu with hmem | hmem
          · have hm := c1Run_output_times es u hmem
            have hlt := hcross _ hm tn (by simp)
            exact hlt.le.trans ht
          · rw [htimes u hmem]
            exact ht
        rw [netLE_eq_netAll _ _ _ hall] at h₁ h₂
        have hstep : c1Step (c1Run es) (.notify tn) = c1Run (es ++ [.notify tn]) :=
          (c1Run_append es _).symm
        obtain ⟨hnet, _⟩ := c1Run_inv (es ++ [.notify tn])
        rw [hstep] at h₁ h₂
        rw [hnet (e, v₁)] at h₁
        rw [hnet (e, v₂)] at h₂
        have hc₁ : alookup e (c1Run (es ++ [.notify tn])).current = some v₁ := by
          by_contra hcon
          rw [if_neg hcon] at h₁
          omega
        have hc₂ : alookup e (c1Run (es ++ [.notify tn])).current = some v₂ := by
          by_contra hcon
          rw [if_neg hcon] at h₂
          omega
        exact Option.some.inj (hc₁ ▸ hc₂)
      · have hdrop : ∀ x, netLE t (c1Step (c1Run es) (.notify tn)).outputs x =
            netLE t (c1Run es).outputs x := by
          intro x
          rw [heq]
          exact netLE_eq_left _ _ _ _ (fun u hu => by rw [htimes u hu]; exact ht)
        rw [hdrop] at h₁ h₂
        exact ih hp₁ t e v₁ v₂ h₁ h₂

/-- The event trace of the spec scenario: assert `(100, "A")` at time 0,
let the frontier pass 0, assert `(100, "B")` at time 1, let the frontier
pass 1.  This is the schedule produced by transacting at 0, advancing,
transacting at 1 and advancing again. -/
def overwriteEvents : List C1Event :=
  [.batch 0 [((Value.eid 100, Value.string "A"), 0, 1)],
   .notify 0,
   .batch 1 [((Value.eid 100, Value.string "B"), 1, 1)],
   .notify 1]

/-- C1: for an attribute with CardinalityOne input semantics, for every
sequence of ingested updates (any event trace of the operator whose
notifications fire in strictly increasing time order, as guaranteed by
the frontier notificator) and every logical time `t`, each entity has at
most one value with net positive multiplicity in the output collection
accumulated up to `t`. -/
theorem C1_cardinality_one_at_most_one_value (events : List C1Event)
    (hmono : (notifyTimes events).Pairwise (· < ·)) (t : T) (e v₁ v₂ : Value)
    (h₁ : 0 < netLE t (c1Run events).outputs (e, v₁))
    (h₂ : 0 < netLE t (c1Run events).outputs (e, v₂)) : v₁ = v₂ :=
  c1AtMostOne events hmono t e v₁ v₂ h₁ h₂

/-- Witness for C1 at the overwrite scenario: at time 1 the value "B" has
positive multiplicity for entity 100, and the theorem applies. -/
theorem C1_cardinality_one_at_most_one_value_witness :
    (0 < netLE 1 (c1Run overwriteEvents).outputs (Value.eid 100, Value.string "B")) ∧
      Value.string "B" = Value.string "B" :=
  ⟨by decide,
    C1_cardinality_one_at_most_one_value overwriteEvents (by decide) 1
      (Value.eid 100) (Value.string "B") (Value.string "B") (by decide) (by decide)⟩

/-- C3: transacting assert `(100, "A")` at time 0 and assert `(100, "B")`
at time 1 on a CardinalityOne attribute makes the operator emit exactly
the diffs `+(100, "A")` at 0, `-(100, "A")` at 1, `+(100, "B")` at 1 (in
this order: at each frontier advance a retraction of the previously
current value at the capability time, then the assertion of the new
value).  A MatchA subscription on the attribute observes exactly this
update stream. -/
theorem C3_cardinality_one_overwrite :
    (c1Run overwriteEvents).outputs =
      [((Value.eid 100, Value.string "A"), 0, 1),
       ((Value.eid 100, Value.string "A"), 1, -1),
       ((Value.eid 100, Value.string "B"), 1, 1)] := by
  decide

/-!
The Domain (src/domain/mod.rs): attributes under a shared timestamp.
Ingest sessions are modelled by their current time together with the log
of updates they have issued; arranged traces are modelled by their
compaction frontier (`advance_by` state), with the collections they
arrange recovered as derived read functions, mirroring the static
dataflow wiring set up in `create_attribute` and `create_source`.
-/

/-- Modelled from the spec: the per-attribute input semantics enum
(called `InputSemantics` by domain/mod.rs; the sources under src/ only
contain the equivalent `AttributeSemantics` of lib.rs). -/
inductive InputSemantics where
  /-- No special semantics enforced. -/
  | Raw
  /-- Only a single value per eid is allowed at any given timestamp. -/
  | CardinalityOne
  /-- Multiple values per eid, but (e,v) pairs are kept distinct. -/
  | CardinalityMany
deriving DecidableEq, Repr

/-- Modelled from the spec: per-attribute configuration with input
semantics and an optional compaction slack (`trace_slack`); the struct
itself is not among the sources under src/, only its uses in
domain/mod.rs are. -/
structure AttributeConfig where
  input_semantics : InputSemantics
  trace_slack : Option T
deriving DecidableEq, Repr

/-- Modelled from the spec: per-relation configuration carrying the
optional compaction slack, as read by `advance_to`. -/
structure RelationConfig where
  trace_slack : Option T
deriving DecidableEq, Repr

/-- An ingest session (`InputSession<T, (Value, Value), isize>`): its
current time and the log of updates issued through it.  A fresh session
from `scope.new_collection()` starts at the minimum time 0. -/
structure Session where
  time : T
  log : List Update
deriving DecidableEq, Repr

/-- The dynamic state of an arranged trace: the frontier passed to
`advance_by`, if any.  The arranged collection itself is a derived view
of the ingest logs (static dataflow wiring). -/
structure IndexState where
  compaction : Option T
deriving DecidableEq, Repr

/-- The `Domain` struct of domain/mod.rs.  The probe handle and the sinks
are runtime-only plumbing not used by any operation modelled here. -/
structure Domain where
  now_at : T
  input_sessions : List (Aid × Session)
  attributes : List (Aid × AttributeConfig)
  forward : List (Aid × IndexState)
  reverse : List (Aid × IndexState)
  relations : List (Aid × RelationConfig)
  arrangements : List (Aid × IndexState)
  /-- Update streams handed to `create_source`; the embedding of the
  dataflow edge from an external source into the indices. -/
  sources : List (Aid × List Update)
deriving DecidableEq, Repr

/-- `Domain::new(start_at)`. -/
def Domain.new (start_at : T) : Domain :=
  ⟨start_at, [], [], [], [], [], [], []⟩

/-- `Domain::create_attribute`: fails with a conflict if the name exists,
otherwise registers the configuration, fresh forward and reverse indices
and a fresh ingest session (a new collection starting at time 0). -/
def create_attribute (d : Domain) (name : Aid) (config : AttributeConfig) :
    Domain × Option Error :=
  if (alookup name d.forward).isSome then
    (d, some ⟨"df.error.category/conflict",
      "An attribute of name " ++ name ++ " already exists."⟩)
  else
    ({ d with
        attributes := ainsert name config d.attributes,
        forward := ainsert name ⟨none⟩ d.forward,
        reverse := ainsert name ⟨none⟩ d.reverse,
        input_sessions := ainsert name ⟨0, []⟩ d.input_sessions }, none)

/-- `Domain::create_source`: registers forward and reverse indices over
an external datom stream (made distinct); no ingest session is
created. -/
def create_source (d : Domain) (name : Aid) (datoms : List Update) :
    Domain × Option Error :=
  if (alookup name d.forward).isSome then
    (d, some ⟨"df.error.category/conflict",
      "An attribute of name " ++ name ++ " already exists."⟩)
  else
    ({ d with
        forward := ainsert name ⟨none⟩ d.forward,
        reverse := ainsert name ⟨none⟩ d.reverse,
        sources := ainsert name datoms d.sources }, none)

/-- `InputSession::update`: issue an update at the current session
time. -/
def sessionUpdate (s : Session) (e : Eid) (v : Value) (op : Int) : Session :=
  { s with log := s.log ++ [((Value.eid e, v), s.time, op)] }

/-- Dispatch a single datom to its ingest session, leaving the domain
unchanged if the attribute is unknown (the loop body of
`Domain::transact` without its early return). -/
def applyTx (d : Domain) (tx : TxData) : Domain :=
  match alookup tx.a d.input_sessions with
  | none => d
  | some s =>
    { d with input_sessions :=
        ainsert tx.a (sessionUpdate s tx.e tx.v tx.op) d.input_sessions }

/-- All datoms dispatched in order, ignoring unknown attributes. -/
def applyAll (d : Domain) (txs : List TxData) : Domain :=
  txs.foldl applyTx d

/-- `Domain::transact`: dispatch datoms in order; on the first datom
naming an attribute with no ingest session, stop and report not-found
(previously dispatched updates remain applied). -/
def transact (d : Domain) : List TxData → Domain × Option Error
  | [] => (d, none)
  | tx :: rest =>
    match alookup tx.a d.input_sessions with
    | none => (d, some ⟨"df.error.category/not-found",
        "Attribute " ++ tx.a ++ " does not exist."⟩)
    | some s =>
      transact
        { d with input_sessions :=
            ainsert tx.a (sessionUpdate s tx.e tx.v tx.op) d.input_sessions }
        rest

/-- `Domain::advance_to`: reject rewinds with a conflict; a call at the
current time is a no-op; a strict advance updates `now_at`, advances and
flushes every ingest session, and advances every forward, reverse and
relation trace whose configuration has a slack by `next - slack`.  The
`.expect` panics on configurations of unknown attributes are modelled as
no-ops; they are unreachable for domains built through this API. -/
def advance_to (d : Domain) (next : T) : Domain × Option Error :=
  if ¬d.now_at ≤ next then
    (d, some ⟨"df.error.category/conflict",
      "Domain is at " ++ toString d.now_at ++ ", you attempted to rewind to "
        ++ toString next ++ "."⟩)
  else if ¬d.now_at = next then
    let d₁ := { d with
      now_at := next,
      input_sessions :=
        d.input_sessions.map (fun p => (p.1, { p.2 with time := next })) }
    let d₂ := d.attributes.foldl (fun acc p =>
      match p.2.trace_slack with
      | some slack =>
        { acc with
            forward := aupdate p.1 (fun _ => ⟨some (next - slack)⟩) acc.forward,
            reverse := aupdate p.1 (fun _ => ⟨some (next - slack)⟩) acc.reverse }
      | none => acc) d₁
    let d₃ := d.relations.foldl (fun acc p =>
      match p.2.trace_slack with
      | some slack =>
        { acc with
            arrangements :=
              aupdate p.1 (fun _ => ⟨some (next - slack)⟩) acc.arrangements }
      | none => acc) d₂
    (d₃, none)
  else
    (d, none)

/-- The domain-facing operations a client can drive, used to quantify
over reachable domain states. -/
inductive DomainOp where
  /-- Register a new attribute. -/
  | createAttributeOp (name : Aid) (config : AttributeConfig)
  /-- Register an attribute fed by an external source. -/
  | createSourceOp (name : Aid) (datoms : List Update)
  /-- Transact a list of datoms. -/
  | transactOp (txs : List TxData)
  /-- Advance the domain to a new time. -/
  | advanceToOp (next : T)

/-- Apply one operation, keeping the (possibly unchanged) domain. -/
def execOp (d : Domain) : DomainOp → Domain
  | .createAttributeOp n c => (create_attribute d n c).1
  | .createSourceOp n ds => (create_source d n ds).1
  | .transactOp txs => (transact d txs).1
  | .advanceToOp t => (advance_to d t).1

/-- The domain reached from `Domain::new(0)` by a sequence of
operations. -/
def execOps (ops : List DomainOp) : Domain :=
  ops.foldl execOp (Domain.new 0)

/-- C4: advance_to rejects every strict rewind with a conflict error and
leaves the domain unchanged, and advance_to at the current time is a
no-op returning success with the domain unchanged. -/
theorem C4_advance_to_rewind_and_noop (d : Domain) (next : T) :
    (next < d.now_at →
      advance_to d next = (d, some ⟨"df.error.category/conflict",
        "Domain is at " ++ toString d.now_at ++ ", you attempted to rewind to "
          ++ toString next ++ "."⟩)) ∧
    advance_to d d.now_at = (d, none) := by
  constructor
  · intro h
    unfold advance_to
    rw [if_pos (show ¬d.now_at ≤ next from Nat.not_le.mpr h)]
  · unfold advance_to
    rw [if_neg (show ¬¬d.now_at ≤ d.now_at from not_not.mpr le_rfl),
      if_neg (show ¬¬d.now_at = d.now_at from not_not.mpr rfl)]

/-- Witness for C4 at a concrete domain with now_at 5: rewinding to 3 is
a conflict that leaves the domain unchanged, and advancing to 5 is a
successful no-op. -/
theorem C4_advance_to_rewind_and_noop_witness :
    (3 < (Domain.new 5).now_at) ∧
    advance_to (Domain.new 5) 3 = (Domain.new 5, some ⟨"df.error.category/conflict",
      "Domain is at " ++ toString (Domain.new 5).now_at
        ++ ", you attempted to rewind to " ++ toString (3 : T) ++ "."⟩) ∧
    advance_to (Domain.new 5) (Domain.new 5).now_at = (Domain.new 5, none) :=
  ⟨by decide,
    (C4_advance_to_rewind_and_noop (Domain.new 5) 3).1 (by decide),
    (C4_advance_to_rewind_and_noop (Domain.new 5) 3).2⟩

theorem alookup_map_settime (a : Aid) (next : T) (l : List (Aid × Session)) :
    alookup a (l.map (fun p => (p.1, ({ time := next, log := p.2.log } : Session)))) =
      (alookup a l).map (fun s => { time := next, log := s.log }) := by
  induction l with
  | nil => rfl
  | cons hd tl ih =>
    obtain ⟨k, v⟩ := hd
    by_cases h : k = a
    · simp [alookup, h]
    · simp [alookup, h, ih]

theorem advance_attr_fold_sessions (l : List (Aid × AttributeConfig))
    (next : T) (acc : Domain) :
    (l.foldl (fun acc p =>
      match p.2.trace_slack with
      | some slack =>
        { acc with
            forward := aupdate p.1 (fun _ => ⟨some (next - slack)⟩) acc.forward,
            reverse := aupdate p.1 (fun _ => ⟨some (next - slack)⟩) acc.reverse }
      | none => acc) acc).input_sessions = acc.input_sessions := by
  induction l generalizing acc with
  | nil => rfl
  | cons p tl ih =>
    rw [List.foldl_cons]
    cases hsl : p.2.trace_slack with
    | none => rw [ih]
    | some slack => rw [ih]

theorem advance_rel_fold_sessions (l : List (Aid × RelationConfig))
    (next : T) (acc : Domain) :
    (l.foldl (fun acc p =>
      match p.2.trace_slack with
      | some slack =>
        { acc with
            arrangements :=
              aupdate p.1 (fun _ => ⟨some (next - slack)⟩) acc.arrangements }
      | none => acc) acc).input_sessions = acc.input_sessions := by
  induction l generalizing acc with
  | nil => rfl
  | cons p tl ih =>
    rw [List.foldl_cons]
    cases hsl : p.2.trace_slack with
    | none => rw [ih]
    | some slack => rw [ih]

/-- C5 (amended): after a successful strict advance to `next`, every
ingest session registered in the domain has frontier exactly `next`.
When `next` equals `now_at` the call is a no-op and sessions keep their
previous frontiers. -/
theorem C5_strict_advance_sets_session_frontiers (d : Domain) (next : T)
    (hlt : d.now_at < next) (a : Aid) (s : Session)
    (hs : alookup a ((advance_to d next).1.input_sessions) = some s) :
    s.time = next := by
  unfold advance_to at hs
  rw [if_neg (not_not.mpr (le_of_lt hlt)),
    if_pos (show ¬d.now_at = next from Nat.ne_of_lt hlt)] at hs
  dsimp only at hs
  rw [advance_rel_fold_sessions, advance_attr_fold_sessions] at hs
  dsimp only at hs
  rw [alookup_map_settime] at hs
  cases hlook : alookup a d.input_sessions with
  | none => rw [hlook] at hs; simp at hs
  | some s₀ =>
    rw [hlook] at hs
    injection hs with h
    rw [← h]

/-- A reachable domain whose ingest session is younger than `now_at`:
the domain is advanced to 5 first, then the attribute is created, so its
fresh session still sits at the minimum time 0. -/
def staleSessionDomain : Domain :=
  execOps [.advanceToOp 5, .createAttributeOp "a" ⟨.Raw, none⟩]

/-- Counterexample to C5 as stated: advance_to at the current time 5
returns success, but the session created after the last strict advance
still has frontier 0, not 5. -/
theorem C5_counterexample :
    (advance_to staleSessionDomain 5).2 = none ∧
    alookup "a" ((advance_to staleSessionDomain 5).1.input_sessions) =
      some ⟨0, []⟩ ∧
    (0 : T) ≠ 5 := by
  decide

/-- Witness for the amended C5: strictly advancing the stale domain to 7
puts its session frontier at 7. -/
theorem C5_strict_advance_sets_session_frontiers_witness :
    staleSessionDomain.now_at < 7 ∧ (Session.mk 7 []).time = 7 :=
  ⟨by decide,
    C5_strict_advance_sets_session_frontiers staleSessionDomain 7 (by decide)
      "a" ⟨7, []⟩ (by decide)⟩

/-!
Derived reads of the attribute indices.  `create_attribute` wires the
semantics-adjusted tuple stream into `CollectionIndex::index(name,
tuples)` for the forward index and `CollectionIndex::index(name,
tuples.map(swap))` for the reverse index; `create_source` does the same
over the distinct external stream.  The accumulated multiplicity of a
tuple at a time is read off those streams, restricted by the compaction
frontier (advancing a trace by a one-element frontier `f` sends every
update time `τ` to `max τ f`, so a read at `t < f` sees nothing and a
read at `t ≥ f` sees the full accumulation). -/

/-- Insert a time into a sorted list of distinct times. -/
def insertTime (t : T) : List T → List T
  | [] => [t]
  | x :: xs =>
    if t < x then t :: x :: xs
    else if t = x then x :: xs
    else x :: insertTime t xs

/-- The distinct update times of a log, in increasing order. -/
def sortedTimes (log : List Update) : List T :=
  log.foldr (fun u acc => insertTime u.2.1 acc) []

/-- The canonical operator schedule for an ingest log: for each distinct
time in increasing order, a batch carrying the updates of that time
followed by the frontier notification — the schedule realised by
transacting at each time and advancing the domain past it. -/
def c1CanonicalEvents (log : List Update) : List C1Event :=
  (sortedTimes log).flatMap fun t =>
    [.batch t (log.filter (fun u => u.2.1 = t)), .notify t]

/-- Accumulated multiplicity of a tuple at a time in the
semantics-adjusted stream of an attribute (`InputSemantics` dispatch of
`create_attribute`): Raw passes the log through, CardinalityOne runs the
operator, CardinalityMany applies `distinct()`. -/
def semMultAt (sem : InputSemantics) (log : List Update) (x : Value × Value)
    (t : T) : Int :=
  match sem with
  | .Raw => netLE t log x
  | .CardinalityOne => netLE t (c1Run (c1CanonicalEvents log)).outputs x
  | .CardinalityMany => if 0 < netLE t log x then 1 else 0

/-- Accumulated multiplicity of a tuple at a time in the collection
backing an attribute: the semantics-adjusted ingest log for attributes
with sessions, the distinct external stream for source attributes. -/
def attrCollAt (d : Domain) (a : Aid) (x : Value × Value) (t : T) : Int :=
  match alookup a d.input_sessions, alookup a d.attributes with
  | some s, some cfg => semMultAt cfg.input_semantics s.log x t
  | _, _ =>
    match alookup a d.sources with
    | some datoms => if 0 < netLE t datoms x then 1 else 0
    | none => 0

/-- Multiplicity of a tuple at a time in the forward index of an
attribute: the attribute collection, restricted by the compaction
frontier of the forward trace. -/
def forwardMultAt (d : Domain) (a : Aid) (x : Value × Value) (t : T) : Int :=
  match alookup a d.forward with
  | none => 0
  | some idx =>
    match idx.compaction with
    | none => attrCollAt d a x t
    | some f => if f ≤ t then attrCollAt d a x t else 0

/-- Multiplicity of a tuple at a time in the reverse index of an
attribute: the attribute collection mapped through
`|(e, v)| (v, e)`, restricted by the compaction frontier of the
reverse trace. -/
def reverseMultAt (d : Domain) (a : Aid) (x : Value × Value) (t : T) : Int :=
  match alookup a d.reverse with
  | none => 0
  | some idx =>
    match idx.compaction with
    | none => attrCollAt d a (x.2, x.1) t
    | some f => if f ≤ t then attrCollAt d a (x.2, x.1) t else 0

theorem transact_fields (d : Domain) (txs : List TxData) :
    (transact d txs).1.forward = d.forward ∧
    (transact d txs).1.reverse = d.reverse := by
  induction txs generalizing d with
  | nil => exact ⟨rfl, rfl⟩
  | cons tx rest ih =>
    unfold transact
    cases hlook : alookup tx.a d.input_sessions with
    | none => exact ⟨rfl, rfl⟩
    | some s => exact ih _

theorem advance_attr_fold_fwdrev (l : List (Aid × AttributeConfig))
    (next : T) (acc : Domain) (h : acc.forward = acc.reverse) :
    (l.foldl (fun acc p =>
      match p.2.trace_slack with
      | some slack =>
        { acc with
            forward := aupdate p.1 (fun _ => ⟨some (next - slack)⟩) acc.forward,
            reverse := aupdate p.1 (fun _ => ⟨some (next - slack)⟩) acc.reverse }
      | none => acc) acc).forward =
    (l.foldl (fun acc p =>
      match p.2.trace_slack with
      | some slack =>
        { acc with
            forward := aupdate p.1 (fun _ => ⟨some (next - slack)⟩) acc.forward,
            reverse := aupdate p.1 (fun _ => ⟨some (next - slack)⟩) acc.reverse }
      | none => acc) acc).reverse := by
  induction l generalizing acc with
  | nil => exact h
  | cons p tl ih =>
    rw [List.foldl_cons]
    cases hsl : p.2.trace_slack with
    | none => exact ih acc h
    | some slack => exact ih _ (by dsimp only; rw [h])

theorem advance_rel_fold_fwdrev (l : List (Aid × RelationConfig))
    (next : T) (acc : Domain) :
    ((l.foldl (fun acc p =>
      match p.2.trace_slack with
      | some slack =>
        { acc with
            arrangements :=
              aupdate p.1 (fun _ => ⟨some (next - slack)⟩) acc.arrangements }
      | none => acc) acc).forward = acc.forward ∧
    (l.foldl (fun acc p =>
      match p.2.trace_slack with
      | some slack =>
        { acc with
            arrangements :=
              aupdate p.1 (fun _ => ⟨some (next - slack)⟩) acc.arrangements }
      | none => acc) acc).reverse = acc.reverse) := by
  induction l generalizing acc with
  | nil => exact ⟨rfl, rfl⟩
  | cons p tl ih =>
    rw [List.foldl_cons]
    cases hsl : p.2.trace_slack with
    | none => exact ih acc
    | some slack =>
      dsimp only
      exact ih _

theorem execOp_fwdrev (d : Domain) (op : DomainOp)
    (h : d.forward = d.reverse) : (execOp d op).forward = (execOp d op).reverse := by
  cases op with
  | createAttributeOp n c =>
    simp only [execOp]
    unfold create_attribute
    split
    · exact h
    · dsimp only
      rw [h]
  | createSourceOp n ds =>
    simp only [execOp]
    unfold create_source
    split
    · exact h
    · dsimp only
      rw [h]
  | transactOp txs =>
    obtain ⟨h₁, h₂⟩ := transact_fields d txs
    simp only [execOp]
    rw [h₁, h₂, h]
  | advanceToOp next =>
    simp only [execOp]
    unfold advance_to
    by_cases hc₁ : ¬d.now_at ≤ next
    · rw [if_pos hc₁]
      exact h
    · rw [if_neg hc₁]
      by_cases hc₂ : ¬d.now_at = next
      · rw [if_pos hc₂]
        dsimp only
        obtain ⟨hf, hr⟩ := advance_rel_fold_fwdrev d.relations next _
        rw [hf, hr]
        exact advance_attr_fold_fwdrev d.attributes next _ h
      · rw [if_neg hc₂]
        exact h

theorem execOps_fwdrev (ops : List DomainOp) :
    (execOps ops).forward = (execOps ops).reverse := by
  unfold execOps
  induction ops using List.reverseRecOn with
  | nil => rfl
  | append_singleton rest op ih =>
    rw [List.foldl_append, List.foldl_cons, List.foldl_nil]
    exact execOp_fwdrev _ op ih

/-- C6: in every domain reachable by create_attribute, create_source,
transact and advance_to operations, a tuple `(e, v)` has the same
multiplicity at every time `t` in the forward index of an attribute as
the swapped tuple `(v, e)` has in its reverse index. -/
theorem C6_forward_reverse_symmetry (ops : List DomainOp) (a : Aid) (t : T)
    (e v : Value) :
    forwardMultAt (execOps ops) a (e, v) t =
      reverseMultAt (execOps ops) a (v, e) t := by
  unfold forwardMultAt reverseMultAt
  rw [execOps_fwdrev ops]

theorem applyTx_lookup_isSome (d : Domain) (tx : TxData) (a : Aid) :
    (alookup a (applyTx d tx).input_sessions).isSome =
      (alookup a d.input_sessions).isSome := by
  unfold applyTx
  cases hs : alookup tx.a d.input_sessions with
  | none => rfl
  | some s =>
    dsimp only
    rw [alookup_ainsert]
    by_cases h : tx.a = a
    · subst h
      rw [if_pos rfl, hs]
      rfl
    · rw [if_neg h]

theorem applyTx_lookup_none (d : Domain) (tx : TxData) (a : Aid)
    (ha : alookup a d.input_sessions = none) :
    alookup a (applyTx d tx).input_sessions = none := by
  have := applyTx_lookup_isSome d tx a
  rw [ha] at this
  cases hres : alookup a (applyTx d tx).input_sessions with
  | none => rfl
  | some s => rw [hres] at this; simp at this

@[simp] theorem applyAll_nil (d : Domain) : applyAll d [] = d := rfl

theorem applyAll_cons (d : Domain) (tx : TxData) (txs : List TxData) :
    applyAll d (tx :: txs) = applyAll (applyTx d tx) txs := rfl

theorem transact_cons_known (d : Domain) (tx : TxData) (rest : List TxData)
    (s : Session) (hs : alookup tx.a d.input_sessions = some s) :
    transact d (tx :: rest) = transact (applyTx d tx) rest := by
  have h₁ : transact d (tx :: rest) =
      transact { d with input_sessions := ainsert tx.a (sessionUpdate s tx.e tx.v tx.op) d.input_sessions } rest := by
    rw [transact, hs]
  have h₂ : applyTx d tx =
      { d with input_sessions := ainsert tx.a (sessionUpdate s tx.e tx.v tx.op) d.input_sessions } := by
    unfold applyTx
    rw [hs]
  rw [h₁, h₂]

/-- C8: transact reports not-found whenever some datom names an attribute
with no registered ingest session, and when every datom names a
registered attribute it dispatches every update in order to its session
and returns success. -/
theorem C8_transact_dispatch_or_not_found (d : Domain) (txs : List TxData) :
    ((∃ tx ∈ txs, alookup tx.a d.input_sessions = none) →
      ∃ msg, (transact d txs).2 = some ⟨"df.error.category/not-found", msg⟩) ∧
    ((∀ tx ∈ txs, (alookup tx.a d.input_sessions).isSome) →
      transact d txs = (applyAll d txs, none)) := by
  induction txs generalizing d with
  | nil =>
    constructor
    · rintro ⟨tx, htx, _⟩
      exact absurd htx (List.not_mem_nil tx)
    · intro _
      rfl
  | cons tx rest ih =>
    constructor
    · rintro ⟨tx₁, htx₁, hnone⟩
      cases hs : alookup tx.a d.input_sessions with
      | none =>
        unfold transact
        rw [hs]
        exact ⟨_, rfl⟩
      | some s =>
        rw [transact_cons_known d tx rest s hs]
        apply (ih _).1
        rcases List.mem_cons.mp htx₁ with rfl | hmem
        · rw [hs] at hnone
          cases hnone
        · exact ⟨tx₁, hmem, applyTx_lookup_none d tx tx₁.a hnone⟩
    · intro hall
      cases hs : alookup tx.a d.input_sessions with
      | none =>
        have := hall tx (List.mem_cons_self tx rest)
        rw [hs] at this
        simp at this
      | some s =>
        rw [transact_cons_known d tx rest s hs, applyAll_cons]
        apply (ih _).2
        intro tx₁ hmem
        rw [applyTx_lookup_isSome]
        exact hall tx₁ (List.mem_cons_of_mem tx hmem)

/-- Witness for C8: in a domain with only attribute "name", transacting
a datom on unknown attribute "nope" yields the not-found error, and a
well-formed transaction is dispatched in full with success. -/
theorem C8_transact_dispatch_or_not_found_witness :
    (∃ msg, (transact (execOps [.createAttributeOp "name" ⟨.Raw, none⟩])
        [⟨1, 100, "nope", Value.bool true⟩]).2 =
      some ⟨"df.error.category/not-found", msg⟩) ∧
    transact (execOps [.createAttributeOp "name" ⟨.Raw, none⟩])
        [⟨1, 100, "name", Value.string "Alice"⟩] =
      (applyAll (execOps [.createAttributeOp "name" ⟨.Raw, none⟩])
        [⟨1, 100, "name", Value.string "Alice"⟩], none) :=
  ⟨(C8_transact_dispatch_or_not_found
      (execOps [.createAttributeOp "name" ⟨.Raw, none⟩])
      [⟨1, 100, "nope", Value.bool true⟩]).1 (by decide),
   (C8_transact_dispatch_or_not_found
      (execOps [.createAttributeOp "name" ⟨.Raw, none⟩])
      [⟨1, 100, "name", Value.string "Alice"⟩]).2 (by decide)⟩

/-- C9: transact is not atomic on error: when the datoms before the
first unknown attribute are all known, the result state has exactly
those prefix datoms dispatched (none are rolled back), together with the
not-found error for the unknown attribute. -/
theorem C9_transact_not_atomic (d : Domain) (pre : List TxData) (bad : TxData)
    (rest : List TxData) :
    (∀ tx ∈ pre, (alookup tx.a d.input_sessions).isSome) →
    alookup bad.a d.input_sessions = none →
    transact d (pre ++ bad :: rest) =
      (applyAll d pre, some ⟨"df.error.category/not-found",
        "Attribute " ++ bad.a ++ " does not exist."⟩) := by
  induction pre generalizing d with
  | nil =>
    intro _ hbad
    rw [List.nil_append]
    unfold transact
    rw [hbad]
    rfl
  | cons tx pre₁ ih =>
    intro hpre hbad
    obtain ⟨s, hs⟩ := Option.isSome_iff_exists.mp
      (hpre tx (List.mem_cons_self tx pre₁))
    rw [List.cons_append, transact_cons_known d tx _ s hs, applyAll_cons]
    apply ih
    · intro tx₁ hmem
      rw [applyTx_lookup_isSome]
      exact hpre tx₁ (List.mem_cons_of_mem tx hmem)
    · exact applyTx_lookup_none d tx bad.a hbad

/-!
Rule handling in `implement` and `implement_neu` (lib.rs).  After
transitively collecting the rules for the published name, both functions
sort the rules by name (`rules.sort_by(|x, y| x.name.cmp(&y.name))`, a
stable sort) and scan `for index in 1..rules.len() - 1` for two adjacent
equal names, returning `df.error.category/conflict` on a hit; an empty
rule set is rejected with not-found before the scan.
-/

/-- Modelled from the spec: the result of `plan.dependencies()` — the
rule names and attributes a plan needs (the `Dependencies` struct is not
among the sources under src/, only its uses in lib.rs are). -/
structure Dependencies where
  names : List String
  attributes : List Aid
deriving DecidableEq, Repr

/-- A named relation (`pub struct Rule` in lib.rs).  The plan is
abstracted to its `dependencies()` result, which is all the rule
handling of `implement` consults before lowering. -/
structure Rule where
  name : String
  plan : Dependencies
deriving DecidableEq, Repr

/-- Stable insertion into a name-sorted rule list. -/
def insertRuleSorted (r : Rule) : List Rule → List Rule
  | [] => [r]
  | x :: xs => if r.name < x.name then r :: x :: xs else x :: insertRuleSorted r xs

/-- The stable by-name sort `rules.sort_by(|x, y| x.name.cmp(&y.name))`. -/
def sortRules : List Rule → List Rule
  | [] => []
  | r :: rest => insertRuleSorted r (sortRules rest)

/-- The duplicate scan of implement and implement_neu: iterate `index`
over the half-open range `1..rules.len() - 1` and report a conflict for
the first `index` with `rules[index].name == rules[index - 1].name`. -/
def checkDuplicates (rules : List Rule) : Option Error :=
  ((List.range' 1 (rules.length - 1 - 1)).find? (fun index =>
      ((rules.get? index).map Rule.name) == ((rules.get? (index - 1)).map Rule.name))).map
    (fun index => ⟨"df.error.category/conflict",
      "Duplicate rule definitions for rule " ++ (((rules.get? index).map Rule.name).getD "")⟩)

/-- Step 0 of implement once the rules for `name` are collected: reject
an empty rule set with not-found, then sort by name and scan for
duplicates. -/
def implementChecks (name : String) (rules : List Rule) : Option Error :=
  if rules.isEmpty then
    some ⟨"df.error.category/not-found",
      "Couldn\x27t find any rules for name " ++ name ++ "."⟩
  else
    checkDuplicates (sortRules rules)

/-- C2: the code contradicts the claim at its own highlighted instance.
For a rule set of exactly two equally named rules the duplicate scan
iterates over the empty range `1..1`, so implement raises no conflict
error and proceeds to build the dataflow; the claim (and the spec, step
2 of lowering) require `df.error.category/conflict`.  The loop bound
`rules.len() - 1` skips the final adjacent pair. -/
theorem C2_duplicate_check_misses_final_pair :
    implementChecks "r" [⟨"r", ⟨[], []⟩⟩, ⟨"r", ⟨[], []⟩⟩] = none := by
  have hsort : sortRules [⟨"r", ⟨[], []⟩⟩, ⟨"r", ⟨[], []⟩⟩] =
      [(⟨"r", ⟨[], []⟩⟩ : Rule), ⟨"r", ⟨[], []⟩⟩] := by
    simp only [sortRules, insertRuleSorted]
    split <;> rfl
  unfold implementChecks
  rw [if_neg (by decide), hsort]
  rfl

/-- Witness for C9: transacting one known datom, then one on unknown
attribute "nope", applies the first update and reports not-found. -/
theorem C9_transact_not_atomic_witness :
    transact (execOps [.createAttributeOp "name" ⟨.Raw, none⟩])
        [⟨1, 100, "name", Value.string "Alice"⟩,
         ⟨1, 200, "nope", Value.bool true⟩] =
      (applyAll (execOps [.createAttributeOp "name" ⟨.Raw, none⟩])
        [⟨1, 100, "name", Value.string "Alice"⟩],
       some ⟨"df.error.category/not-found",
        "Attribute " ++ "nope" ++ " does not exist."⟩) :=
  C9_transact_not_atomic (execOps [.createAttributeOp "name" ⟨.Raw, none⟩])
    [⟨1, 100, "name", Value.string "Alice"⟩] ⟨1, 200, "nope", Value.bool true⟩
    [] (by decide) (by decide)

/-!
The pull evaluator (src/plan/pull.rs).  `interleave` is the index-based
loop of the source; out-of-bounds indexing (a Rust panic) is modelled by
`none`.
-/

/-- The loop `for i in 0..size` of `interleave`, carrying the two
cursors `next_value` and `next_const`; the first argument is the number
of remaining iterations (`size - i`), so the recursion is structural.
Even indices `i` take the next constant (as an Aid value), odd indices
take the next value.  `none` models the panic of an out-of-bounds
index. -/
def igo (values : List Value) (constants : List Aid) :
    Nat → Nat → Nat → Nat → Option (List Value)
  | 0, _, _, _ => some []
  | fuel + 1, i, next_value, next_const =>
    if i % 2 = 0 then
      match constants.get? next_const with
      | none => none
      | some a =>
        (igo values constants fuel (i + 1) next_value (next_const + 1)).map
          (Value.aid a :: ·)
    else
      match values.get? next_value with
      | none => none
      | some v =>
        (igo values constants fuel (i + 1) (next_value + 1) next_const).map
          (v :: ·)

/-- `interleave(values, constants)` from pull.rs: returns the values
unchanged when either side is empty, otherwise runs the interleaving
loop over `size = values.len() + constants.len()` indices. -/
def interleave (values : List Value) (constants : List Aid) : Option (List Value) :=
  if values.isEmpty || constants.isEmpty then
    some values
  else
    igo values constants (values.length + constants.length) 0 0 0

/-- Reference alternation: consume `n` elements alternating between the
constants (flag true) and the values (flag false), failing when the side
to consume from is exhausted. -/
def alt : Nat → Bool → List Aid → List Value → Option (List Value)
  | 0, _, _, _ => some []
  | _ + 1, true, [], _ => none
  | n + 1, true, a :: as, vs => (alt n false as vs).map (Value.aid a :: ·)
  | _ + 1, false, _, [] => none
  | n + 1, false, cs, v :: vs => (alt n true cs vs).map (v :: ·)

/-- The interleaving of a constant list and a value list, starting with
a constant: the shape of a successful `interleave` result. -/
def zipInterleave : List Aid → List Value → List Value
  | [], _ => []
  | a :: _, [] => [Value.aid a]
  | a :: as, v :: vs => Value.aid a :: v :: zipInterleave as vs

theorem drop_cons_of_get {γ : Type} (l : List γ) (n : Nat) (a : γ)
    (h : l.get? n = some a) : l.drop n = a :: l.drop (n + 1) := by
  induction l generalizing n with
  | nil => simp [List.get?] at h
  | cons x xs ih =>
    cases n with
    | zero =>
      simp only [List.get?] at h
      cases h
      rfl
    | succ m =>
      simp only [List.get?] at h
      simp only [List.drop]
      exact ih m h

theorem drop_nil_of_get_none {γ : Type} (l : List γ) (n : Nat)
    (h : l.get? n = none) : l.drop n = [] := by
  induction l generalizing n with
  | nil => simp
  | cons x xs ih =>
    cases n with
    | zero => simp [List.get?] at h
    | succ m =>
      simp only [List.get?] at h
      simp only [List.drop]
      exact ih m h

theorem igo_eq_alt (values : List Value) (constants : List Aid) :
    ∀ (fuel i nv nc : Nat), nc = (i + 1) / 2 → nv = i / 2 →
      igo values constants fuel i nv nc =
        alt fuel (decide (i % 2 = 0)) (constants.drop nc) (values.drop nv) := by
  intro fuel
  induction fuel with
  | zero =>
    intro i nv nc _ _
    cases hpar : decide (i % 2 = 0) <;> rfl
  | succ fuel ih =>
    intro i nv nc hnc hnv
    by_cases hpar : i % 2 = 0
    · rw [show decide (i % 2 = 0) = true by simp [hpar]]
      simp only [igo, if_pos hpar]
      cases hc : constants.get? nc with
      | none =>
        rw [drop_nil_of_get_none _ _ hc]
        rfl
      | some a =>
        rw [drop_cons_of_get _ _ _ hc]
        have halt : alt (fuel + 1) true (a :: constants.drop (nc + 1))
            (values.drop nv) =
            (alt fuel false (constants.drop (nc + 1)) (values.drop nv)).map
              (Value.aid a :: ·) := rfl
        rw [halt, ih (i + 1) nv (nc + 1) (by omega) (by omega),
          show decide ((i + 1) % 2 = 0) = false by simp; omega]
    · rw [show decide (i % 2 = 0) = false by simp [hpar]]
      simp only [igo, if_neg hpar]
      cases hv : values.get? nv with
      | none =>
        rw [drop_nil_of_get_none _ _ hv]
        rfl
      | some v =>
        rw [drop_cons_of_get _ _ _ hv]
        have halt : alt (fuel + 1) false (constants.drop nc)
            (v :: values.drop (nv + 1)) =
            (alt fuel true (constants.drop nc) (values.drop (nv + 1))).map
              (v :: ·) := rfl
        rw [halt, ih (i + 1) (nv + 1) nc (by omega) (by omega),
          show decide ((i + 1) % 2 = 0) = true by simp; omega]

theorem alt_success (cs : List Aid) :
    ∀ vs : List Value, (cs.length = vs.length ∨ cs.length = vs.length + 1) →
      alt (cs.length + vs.length) true cs vs = some (zipInterleave cs vs) := by
  induction cs with
  | nil =>
    intro vs h
    have hvs : vs = [] := by
      cases vs with
      | nil => rfl
      | cons v vs₁ =>
        simp only [List.length_nil, List.length_cons] at h
        omega
    subst hvs
    rfl
  | cons a as ih =>
    intro vs h
    cases vs with
    | nil =>
      have has : as = [] := by
        cases as with
        | nil => rfl
        | cons a₂ as₂ =>
          simp only [List.length_nil, List.length_cons] at h
          omega
      subst has
      rfl
    | cons v vs₁ =>
      have harith : (a :: as).length + (v :: vs₁).length =
          as.length + vs₁.length + 2 := by
        simp only [List.length_cons]
        omega
      rw [harith]
      have h1 : alt (as.length + vs₁.length + 2) true (a :: as) (v :: vs₁) =
          (alt (as.length + vs₁.length + 1) false as (v :: vs₁)).map
            (Value.aid a :: ·) := rfl
      have h2 : alt (as.length + vs₁.length + 1) false as (v :: vs₁) =
          (alt (as.length + vs₁.length) true as vs₁).map (v :: ·) := rfl
      rw [h1, h2, ih vs₁ (by simp only [List.length_cons] at h; omega)]
      rfl

theorem alt_failure (cs : List Aid) :
    ∀ vs : List Value,
      ¬(cs.length = vs.length ∨ cs.length = vs.length + 1) →
      alt (cs.length + vs.length) true cs vs = none := by
  induction cs with
  | nil =>
    intro vs h
    cases vs with
    | nil => exact absurd (Or.inl rfl) h
    | cons v vs₁ => rfl
  | cons a as ih =>
    intro vs h
    cases vs with
    | nil =>
      cases as with
      | nil => exact absurd (Or.inr rfl) h
      | cons a₂ as₂ => rfl
    | cons v vs₁ =>
      have harith : (a :: as).length + (v :: vs₁).length =
          as.length + vs₁.length + 2 := by
        simp only [List.length_cons]
        omega
      rw [harith]
      have h1 : alt (as.length + vs₁.length + 2) true (a :: as) (v :: vs₁) =
          (alt (as.length + vs₁.length + 1) false as (v :: vs₁)).map
            (Value.aid a :: ·) := rfl
      have h2 : alt (as.length + vs₁.length + 1) false as (v :: vs₁) =
          (alt (as.length + vs₁.length) true as vs₁).map (v :: ·) := rfl
      rw [h1, h2, ih vs₁ (by simp only [List.length_cons] at h; omega)]
      rfl

theorem zipInterleave_length (cs : List Aid) :
    ∀ vs : List Value, (cs.length = vs.length ∨ cs.length = vs.length + 1) →
      (zipInterleave cs vs).length = vs.length + cs.length := by
  induction cs with
  | nil =>
    intro vs h
    have hvs : vs = [] := by
      cases vs with
      | nil => rfl
      | cons v vs₁ =>
        simp only [List.length_nil, List.length_cons] at h
        omega
    subst hvs
    rfl
  | cons a as ih =>
    intro vs h
    cases vs with
    | nil =>
      have has : as = [] := by
        cases as with
        | nil => rfl
        | cons a₂ as₂ =>
          simp only [List.length_nil, List.length_cons] at h
          omega
      subst has
      rfl
    | cons v vs₁ =>
      simp only [zipInterleave, List.length_cons,
        ih vs₁ (by simp only [List.length_cons] at h; omega)]
      omega

theorem zipInterleave_get_even (cs : List Aid) :
    ∀ (vs : List Value), (cs.length = vs.length ∨ cs.length = vs.length + 1) →
      ∀ (i : Nat) (a : Aid), cs.get? i = some a →
        (zipInterleave cs vs).get? (2 * i) = some (Value.aid a) := by
  induction cs with
  | nil =>
    intro vs _ i a hi
    simp [List.get?] at hi
  | cons c cs₁ ih =>
    intro vs h i a hi
    cases i with
    | zero =>
      simp only [List.get?] at hi
      cases hi
      cases vs <;> rfl
    | succ j =>
      simp only [List.get?] at hi
      cases vs with
      | nil =>
        have hlen : cs₁.length = 0 := by
          simp only [List.length_cons, List.length_nil] at h
          omega
        rw [List.get?_eq_none.mpr (by omega)] at hi
        cases hi
      | cons v vs₁ =>
        rw [show 2 * (j + 1) = 2 * j + 1 + 1 by omega]
        show (Value.aid c :: v :: zipInterleave cs₁ vs₁).get? (2 * j + 1 + 1) = _
        rw [List.get?_cons_succ, List.get?_cons_succ]
        exact ih vs₁ (by simp only [List.length_cons] at h; omega) j a hi

theorem zipInterleave_get_odd (cs : List Aid) :
    ∀ (vs : List Value), (cs.length = vs.length ∨ cs.length = vs.length + 1) →
      ∀ (i : Nat) (v : Value), vs.get? i = some v →
        (zipInterleave cs vs).get? (2 * i + 1) = some v := by
  induction cs with
  | nil =>
    intro vs h i v hi
    have hvs : vs = [] := by
      cases vs with
      | nil => rfl
      | cons v₁ vs₁ =>
        simp only [List.length_nil, List.length_cons] at h
        omega
    subst hvs
    simp [List.get?] at hi
  | cons c cs₁ ih =>
    intro vs h i v hi
    cases vs with
    | nil => simp [List.get?] at hi
    | cons v₁ vs₁ =>
      cases i with
      | zero =>
        simp only [List.get?] at hi
        cases hi
        rfl
      | succ j =>
        simp only [List.get?] at hi
        rw [show 2 * (j + 1) + 1 = 2 * j + 1 + 1 + 1 by omega]
        show (Value.aid c :: v₁ :: zipInterleave cs₁ vs₁).get? (2 * j + 1 + 1 + 1) = _
        rw [List.get?_cons_succ, List.get?_cons_succ]
        exact ih vs₁ (by simp only [List.length_cons] at h; omega) j v hi

theorem interleave_eq_alt (values : List Value) (constants : List Aid)
    (hv : values ≠ []) (hc : constants ≠ []) :
    interleave values constants =
      alt (constants.length + values.length) true constants values := by
  unfold interleave
  rw [if_neg (by simp [List.isEmpty_iff, hv, hc]),
    igo_eq_alt values constants (values.length + constants.length) 0 0 0 rfl rfl,
    Nat.add_comm values.length constants.length]
  simp only [List.drop_zero]
  rfl

/-- C10: interleave returns the values unchanged when either list is
empty; for nonempty lists it avoids out-of-bounds indexing (a panic)
exactly when the constants have length equal to the values length or
that length plus one, and then the result has length
`|values| + |constants|` with position `2i` holding `Aid(constants[i])`
and position `2i + 1` holding `values[i]`. -/
theorem C10_interleave_totality_and_shape (values : List Value)
    (constants : List Aid) :
    ((values = [] ∨ constants = []) →
      interleave values constants = some values) ∧
    (values ≠ [] → constants ≠ [] →
      (((interleave values constants).isSome ↔
          (constants.length = values.length ∨
            constants.length = values.length + 1)) ∧
        ((constants.length = values.length ∨
            constants.length = values.length + 1) →
          interleave values constants = some (zipInterleave constants values) ∧
          (zipInterleave constants values).length =
            values.length + constants.length ∧
          (∀ (i : Nat) (a : Aid), constants.get? i = some a →
            (zipInterleave constants values).get? (2 * i) =
              some (Value.aid a)) ∧
          (∀ (i : Nat) (v : Value), values.get? i = some v →
            (zipInterleave constants values).get? (2 * i + 1) = some v)))) := by
  constructor
  · intro h
    unfold interleave
    rw [if_pos]
    rcases h with h | h <;> simp [h]
  · intro hv hc
    rw [interleave_eq_alt values constants hv hc]
    constructor
    · constructor
      · intro hsome
        by_contra hlen
        rw [alt_failure constants values hlen] at hsome
        simp at hsome
      · intro hlen
        rw [alt_success constants values hlen]
        rfl
    · intro hlen
      refine ⟨?_, ?_, zipInterleave_get_even constants values hlen,
        zipInterleave_get_odd constants values hlen⟩
      · rw [alt_success constants values hlen]
      · rw [zipInterleave_length constants values hlen]

/-- Witness for C10: the empty case returns the values unchanged, and
the pull test instance (one value column, one path attribute) produces
the interleaved tuple. -/
theorem C10_interleave_totality_and_shape_witness :
    interleave [] ["root"] = some [] ∧
    interleave [Value.eid 200] ["root"] =
      some (zipInterleave ["root"] [Value.eid 200]) :=
  ⟨(C10_interleave_totality_and_shape [] ["root"]).1 (Or.inl rfl),
   (((C10_interleave_totality_and_shape [Value.eid 200] ["root"]).2
      (by decide) (by decide)).2 (by decide)).1⟩

/-!
`PullLevel::implement` (pull.rs).  The input relation lives in the
nested iterative scope, so its times are `Product<T, u64>` pairs; the
propose trace of each pulled attribute is imported into the outer scope
and entered into the nested scope at a time advanced by the trace
frontier (`enter_at` with `Product::new(forwarded, 0)`).  The join
matches the last element of each input tuple against the propose keys
and emits `interleave(path, path_attributes) ++ [Aid, Value]` at the
join of the two times, with multiplied diffs.
-/

/-- A timestamp in the nested iterative scope: `Product<T, u64>`. -/
abbrev TimeP := T × Nat

/-- The lattice join of two product timestamps. -/
def timeJoin (t₁ t₂ : TimeP) : TimeP := (max t₁.1 t₂.1, max t₁.2 t₂.2)

/-- The propose trace of an attribute index as visible to PullLevel:
its updates and its `advance_frontier()`. -/
structure ProposeIndex where
  updates : List ((Value × Value) × T × Int)
  frontier : List T
deriving DecidableEq, Repr

/-- `time.advance_by(&frontier)` for a totally ordered time: the least
join of the time with a frontier element; an empty frontier leaves the
time unchanged. -/
def advanceBy (τ : T) : List T → T
  | [] => τ
  | f :: fs => fs.foldl (fun acc f₁ => min acc (max τ f₁)) (max τ f)

/-- The `enter_at` closure of PullLevel:
`Product::new(time.advance_by(frontier), 0)`. -/
def enterAt (frontier : List T) (τ : T) : TimeP := (advanceBy τ frontier, 0)

/-- A tuple of the input relation with its nested time and diff. -/
abbrev PathTuple := List Value × TimeP × Int

/-- The arranged form of an input tuple:
`paths.map(|t| (t.last().unwrap().clone(), t))`, keyed by the last
element; `none` models the panic on an empty tuple. -/
def eKey (rec : PathTuple) : Option (Value × PathTuple) :=
  (rec.1.getLast?).map (fun e => (e, rec))

/-- The `join_core` of PullLevel for one pulled attribute `a`: for every
pair of an input tuple and a propose update with equal key, emit the
interleaved path followed by the attribute and the value, at the joined
time with multiplied diffs; `none` models a panic inside `interleave`. -/
def joinCore (e_path : List (Value × PathTuple))
    (e_v : List (Value × Value × TimeP × Int))
    (path_attributes : List Aid) (a : Aid) : Option (List PathTuple) :=
  (e_path.mapM (fun p =>
    ((e_v.filter (fun q => decide (q.1 = p.1))).mapM (fun q =>
      (interleave p.2.1 path_attributes).map (fun ip =>
        (ip ++ [Value.aid a, q.2.1], timeJoin p.2.2.1 q.2.2.1,
          p.2.2.2 * q.2.2.2)))))).map List.flatten

/-- `PullLevel::implement`, as a function from the input relation and
the per-attribute propose indices to the output relation: with no pull
attributes the input passes through (interleaved when path attributes
are present); otherwise the input is arranged by last element, each
pulled attribute contributes a join against its entered propose trace,
and the streams are concatenated.  `none` models the panics (empty
tuple, unknown attribute, interleave out of bounds). -/
def pullLevelTuples (inputs : List PathTuple) (ctx : List (Aid × ProposeIndex))
    (pull_attributes path_attributes : List Aid) : Option (List PathTuple) :=
  if pull_attributes.isEmpty then
    if path_attributes.isEmpty then
      some inputs
    else
      inputs.mapM (fun rec =>
        (interleave rec.1 path_attributes).map (fun ip => (ip, rec.2)))
  else do
    let e_path ← inputs.mapM eKey
    let streams ← pull_attributes.mapM (fun a =>
      match alookup a ctx with
      | none => none
      | some index =>
        joinCore e_path
          (index.updates.map (fun u =>
            (u.1.1, u.1.2, enterAt index.frontier u.2.1, u.2.2)))
          path_attributes a)
    pure streams.flatten

theorem omapM_isSome {γ δ : Type} (f : γ → Option δ) :
    ∀ l : List γ, (∀ x ∈ l, (f x).isSome) → (l.mapM f).isSome := by
  intro l
  induction l with
  | nil => intro _; rfl
  | cons x xs ih =>
    intro h
    rw [List.mapM_cons]
    obtain ⟨b, hb⟩ := Option.isSome_iff_exists.mp (h x (List.mem_cons_self x xs))
    obtain ⟨bs, hbs⟩ := Option.isSome_iff_exists.mp
      (ih (fun y hy => h y (List.mem_cons_of_mem x hy)))
    rw [hb, hbs]
    rfl

theorem omapM_mem {γ δ : Type} (f : γ → Option δ) :
    ∀ (l : List γ) (ys : List δ), l.mapM f = some ys →
      ∀ b, b ∈ ys ↔ ∃ x, x ∈ l ∧ f x = some b := by
  intro l
  induction l with
  | nil =>
    intro ys h b
    rw [List.mapM_nil] at h
    cases h
    simp
  | cons x xs ih =>
    intro ys h b
    rw [List.mapM_cons] at h
    cases hfx : f x with
    | none => rw [hfx] at h; simp at h
    | some bx =>
      rw [hfx] at h
      cases hm : xs.mapM f with
      | none => rw [hm] at h; simp at h
      | some bs =>
        rw [hm] at h
        simp only [Option.bind_eq_bind, Option.some_bind, Option.pure_def,
          Option.some.injEq] at h
        subst h
        simp only [List.mem_cons]
        constructor
        · rintro (rfl | hmem)
          · exact ⟨x, Or.inl rfl, hfx⟩
          · obtain ⟨y, hy, hfy⟩ := (ih bs hm b).mp hmem
            exact ⟨y, Or.inr hy, hfy⟩
        · rintro ⟨y, (rfl | hy), hfy⟩
          · rw [hfx] at hfy
            cases hfy
            exact Or.inl rfl
          · exact Or.inr ((ih bs hm b).mpr ⟨y, hy, hfy⟩)

theorem getLast_isSome_of_ne_nil {γ : Type} (l : List γ) (h : l ≠ []) :
    l.getLast?.isSome := by
  induction l with
  | nil => exact absurd rfl h
  | cons x xs ih =>
    cases xs with
    | nil => rfl
    | cons y ys =>
      rw [List.getLast?_cons_cons]
      exact ih (by simp)

theorem joinCore_mem (e_path : List (Value × PathTuple))
    (e_v : List (Value × Value × TimeP × Int)) (path_attributes : List Aid)
    (a : Aid)
    (hint : ∀ p ∈ e_path, (interleave p.2.1 path_attributes).isSome) :
    ∃ out, joinCore e_path e_v path_attributes a = some out ∧
      ∀ x, x ∈ out ↔ ∃ p, p ∈ e_path ∧ ∃ q, q ∈ e_v ∧ q.1 = p.1 ∧
        ∃ ip, interleave p.2.1 path_attributes = some ip ∧
          x = (ip ++ [Value.aid a, q.2.1], timeJoin p.2.2.1 q.2.2.1,
            p.2.2.2 * q.2.2.2) := by
  have hinner : ∀ p ∈ e_path,
      ((e_v.filter (fun q => decide (q.1 = p.1))).mapM (fun q =>
        (interleave p.2.1 path_attributes).map (fun ip =>
          (ip ++ [Value.aid a, q.2.1], timeJoin p.2.2.1 q.2.2.1,
            p.2.2.2 * q.2.2.2)))).isSome := by
    intro p hp
    apply omapM_isSome
    intro q _
    obtain ⟨ip, hip⟩ := Option.isSome_iff_exists.mp (hint p hp)
    rw [hip]
    rfl
  obtain ⟨parts, hparts⟩ :=
    Option.isSome_iff_exists.mp (omapM_isSome _ e_path hinner)
  refine ⟨parts.flatten, ?_, ?_⟩
  · unfold joinCore
    rw [hparts]
    rfl
  · intro x
    rw [List.mem_flatten]
    constructor
    · rintro ⟨part, hpart, hx⟩
      obtain ⟨p, hp, hpartEq⟩ := (omapM_mem _ e_path parts hparts part).mp hpart
      obtain ⟨q, hq, hqx⟩ := (omapM_mem _ _ part hpartEq x).mp hx
      rw [List.mem_filter] at hq
      obtain ⟨hqev, hqkey⟩ := hq
      obtain ⟨ip, hip⟩ := Option.isSome_iff_exists.mp (hint p hp)
      rw [hip] at hqx
      cases hqx
      exact ⟨p, hp, q, hqev, of_decide_eq_true hqkey, ip, hip, rfl⟩
    · rintro ⟨p, hp, q, hq, hkey, ip, hip, rfl⟩
      obtain ⟨part, hpartEq⟩ := Option.isSome_iff_exists.mp (hinner p hp)
      refine ⟨part, (omapM_mem _ e_path parts hparts part).mpr ⟨p, hp, hpartEq⟩, ?_⟩
      apply (omapM_mem _ _ part hpartEq _).mpr
      refine ⟨q, List.mem_filter.mpr ⟨hq, decide_eq_true hkey⟩, ?_⟩
      rw [hip]
      rfl

/-- C7: for PullLevel with a nonempty pull_attributes list over
registered attributes, inputs with nonempty tuples and compatible path
attributes, the output relation contains exactly the tuples
`interleave(input_tuple, path_attributes) ++ [Aid(a), v]` for each
pulled attribute `a` and each `(e, v)` in its forward propose trace with
`e` the last element of the input tuple, at the join of the input time
with the propose time entered at the attribute frontier
(`enter_at` pattern), with multiplied diffs; no other tuples are
emitted. -/
theorem C7_pull_level_output (inputs : List PathTuple)
    (ctx : List (Aid × ProposeIndex))
    (pull_attributes path_attributes : List Aid)
    (hpa : pull_attributes ≠ [])
    (hctx : ∀ a ∈ pull_attributes, (alookup a ctx).isSome)
    (hne : ∀ rec ∈ inputs, rec.1 ≠ [])
    (hint : ∀ rec ∈ inputs, (interleave rec.1 path_attributes).isSome) :
    ∃ out, pullLevelTuples inputs ctx pull_attributes path_attributes =
        some out ∧
      ∀ x, x ∈ out ↔ ∃ a, a ∈ pull_attributes ∧ ∃ idx,
        alookup a ctx = some idx ∧ ∃ rec, rec ∈ inputs ∧ ∃ e,
        rec.1.getLast? = some e ∧ ∃ v τ₂ d₂,
        ((e, v), τ₂, d₂) ∈ idx.updates ∧ ∃ ip,
        interleave rec.1 path_attributes = some ip ∧
        x = (ip ++ [Value.aid a, v],
          timeJoin rec.2.1 (enterAt idx.frontier τ₂), rec.2.2 * d₂) := by
  have hek : ∀ rec ∈ inputs, (eKey rec).isSome := by
    intro rec hrec
    unfold eKey
    obtain ⟨e, he⟩ := Option.isSome_iff_exists.mp
      (getLast_isSome_of_ne_nil _ (hne rec hrec))
    rw [he]
    rfl
  obtain ⟨ep, hep⟩ := Option.isSome_iff_exists.mp (omapM_isSome eKey inputs hek)
  have hepMem : ∀ p, p ∈ ep ↔ ∃ rec, rec ∈ inputs ∧ ∃ e,
      rec.1.getLast? = some e ∧ p = (e, rec) := by
    intro p
    rw [omapM_mem eKey inputs ep hep p]
    constructor
    · rintro ⟨rec, hrec, hkey⟩
      unfold eKey at hkey
      cases hL : rec.1.getLast? with
      | none => rw [hL] at hkey; cases hkey
      | some e =>
        rw [hL] at hkey
        cases hkey
        exact ⟨rec, hrec, e, hL, rfl⟩
    · rintro ⟨rec, hrec, e, hL, rfl⟩
      refine ⟨rec, hrec, ?_⟩
      unfold eKey
      rw [hL]
      rfl
  have hintEp : ∀ p ∈ ep, (interleave p.2.1 path_attributes).isSome := by
    intro p hp
    obtain ⟨rec, hrec, e, hL, rfl⟩ := (hepMem p).mp hp
    exact hint rec hrec
  have hstream : ∀ a ∈ pull_attributes,
      (match alookup a ctx with
       | none => none
       | some index =>
         joinCore ep
           (index.updates.map (fun (u : (Value × Value) × T × Int) =>
             (u.1.1, u.1.2, enterAt index.frontier u.2.1, u.2.2)))
           path_attributes a).isSome := by
    intro a ha
    obtain ⟨idx, hidx⟩ := Option.isSome_iff_exists.mp (hctx a ha)
    rw [hidx]
    obtain ⟨out, houtEq, _⟩ := joinCore_mem ep
      (idx.updates.map (fun (u : (Value × Value) × T × Int) =>
        (u.1.1, u.1.2, enterAt idx.frontier u.2.1, u.2.2)))
      path_attributes a hintEp
    dsimp only
    rw [houtEq]
    rfl
  obtain ⟨sts, hsts⟩ :=
    Option.isSome_iff_exists.mp (omapM_isSome _ pull_attributes hstream)
  refine ⟨sts.flatten, ?_, ?_⟩
  · unfold pullLevelTuples
    rw [if_neg (by simp [List.isEmpty_iff, hpa])]
    simp only [hep, hsts, Option.bind_eq_bind, Option.some_bind,
      Option.pure_def]
  · intro x
    rw [List.mem_flatten]
    constructor
    · rintro ⟨s, hs, hx⟩
      obtain ⟨a, ha, hga⟩ := (omapM_mem _ pull_attributes sts hsts s).mp hs
      obtain ⟨idx, hidx⟩ := Option.isSome_iff_exists.mp (hctx a ha)
      rw [hidx] at hga
      obtain ⟨out, houtEq, hiff⟩ := joinCore_mem ep
        (idx.updates.map (fun (u : (Value × Value) × T × Int) =>
          (u.1.1, u.1.2, enterAt idx.frontier u.2.1, u.2.2)))
        path_attributes a hintEp
      dsimp only at hga
      rw [houtEq] at hga
      cases hga
      obtain ⟨p, hp, q, hq, hkey, ip, hip, rfl⟩ := (hiff x).mp hx
      obtain ⟨u, hu, hqeq⟩ := List.mem_map.mp hq
      obtain ⟨rec, hrec, e, hL, rfl⟩ := (hepMem p).mp hp
      subst hqeq
      refine ⟨a, ha, idx, hidx, rec, hrec, e, hL, u.1.2, u.2.1, u.2.2, ?_,
        ip, hip, rfl⟩
      have hkey₁ : u.1.1 = e := hkey
      have heta : ((e, u.1.2), u.2.1, u.2.2) = u := by
        rw [← hkey₁]
      rw [heta]
      exact hu
    · rintro ⟨a, ha, idx, hidx, rec, hrec, e, hL, v, τ₂, d₂, hu, ip, hip, rfl⟩
      obtain ⟨out, houtEq, hiff⟩ := joinCore_mem ep
        (idx.updates.map (fun (u : (Value × Value) × T × Int) =>
          (u.1.1, u.1.2, enterAt idx.frontier u.2.1, u.2.2)))
        path_attributes a hintEp
      refine ⟨out, ?_, ?_⟩
      · apply (omapM_mem _ pull_attributes sts hsts out).mpr
        refine ⟨a, ha, ?_⟩
        rw [hidx]
        exact houtEq
      · apply (hiff _).mpr
        exact ⟨(e, rec), (hepMem _).mpr ⟨rec, hrec, e, hL, rfl⟩,
          (e, v, enterAt idx.frontier τ₂, d₂),
          List.mem_map.mpr ⟨((e, v), τ₂, d₂), hu, rfl⟩, rfl, ip, hip, rfl⟩

/-- The input relation of the first pull test case: the entities with
`admin? = false`, one column each, at nested time `(0, 0)`. -/
def pullTestInputs : List PathTuple :=
  [([Value.eid 200], (0, 0), 1), ([Value.eid 300], (0, 0), 1)]

/-- The propose indices of the first pull test case. -/
def pullTestCtx : List (Aid × ProposeIndex) :=
  [("name", ⟨[((Value.eid 100, Value.string "Mabel"), 0, 1),
              ((Value.eid 200, Value.string "Dipper"), 0, 1),
              ((Value.eid 300, Value.string "Soos"), 0, 1)], [0]⟩),
   ("age", ⟨[((Value.eid 100, Value.number 12), 0, 1),
             ((Value.eid 200, Value.number 13), 0, 1)], [0]⟩)]

/-- Witness for C7 at the pull test instance: the output of
`PullLevel(pull = [name, age], path = [root])` over the two matching
entities is characterised by the theorem. -/
theorem C7_pull_level_output_witness :
    ∃ out, pullLevelTuples pullTestInputs pullTestCtx ["name", "age"]
        ["root"] = some out ∧
      ∀ x, x ∈ out ↔ ∃ a, a ∈ ["name", "age"] ∧ ∃ idx,
        alookup a pullTestCtx = some idx ∧ ∃ rec, rec ∈ pullTestInputs ∧ ∃ e,
        rec.1.getLast? = some e ∧ ∃ v τ₂ d₂,
        ((e, v), τ₂, d₂) ∈ idx.updates ∧ ∃ ip,
        interleave rec.1 ["root"] = some ip ∧
        x = (ip ++ [Value.aid a, v],
          timeJoin rec.2.1 (enterAt idx.frontier τ₂), rec.2.2 * d₂) :=
  C7_pull_level_output pullTestInputs pullTestCtx ["name", "age"] ["root"]
    (by decide) (by decide) (by decide) (by decide)

end DDF
